import Mathlib

/-!
Verification of the bliq dataset catalog (metastore / manager / datastore).

This file shallowly embeds the Python sources:
  * src/bliq/metastore.py : the relational metadata store (MetaStore) with its
    Dataset / Version / Block rows, embedded as explicit record lists, and all
    invariant-relevant operations (create_dataset_with_version, add_version,
    extend_version, get_version, list_versions, delete_dataset, delete_version,
    get_all_block_ids_for_dataset);
  * src/bliq/manager.py : DatasetManager (create, extend, erase and the
    next-version computation), with physical-store effects made explicit and
    the order of metadata vs. physical deletions recorded as an event trace;
  * src/bliq/datastore.py : the LocalDataStore and AzureDataStore delete paths
    over an explicit set of stored physical blocks.

Machine integers do not overflow in the Python source (arbitrary-precision int),
so counters are Nat / Int.  Fallible operations return an Except value paired
with the post-state; a raised exception leaves the (transactional) state
unchanged, which the embedding makes explicit by returning the input state.
-/

namespace Bliq

/-- Error kinds corresponding to the exceptions raised by metastore.py and
manager.py (ValueError with the respective message) and to the database's
unique-constraint violation (peewee IntegrityError). -/
inductive Err where
  | alreadyExists
  | notFound
  | invalidName
  | constraintViolation
deriving DecidableEq, Repr

/-- metastore.BlockInfo: information about a block to be added. -/
structure BlockInfo where
  block_id : String
  size_bytes : Nat
  row_count : Nat
deriving DecidableEq, Repr

/-- A row of the Block table (metastore.Block): a parquet file reference scoped
to one version.  created_at models the datetime.now default. -/
structure BlockRow where
  block_number : Nat
  block_id : String
  size_bytes : Nat
  row_count : Nat
  created_at : Nat
deriving DecidableEq, Repr

/-- A row of the Version table (metastore.Version) together with its Block rows
(the rows whose foreign key points at it), kept in insertion order. -/
structure VersionRec where
  version : String
  description : Option String
  row_count : Nat
  file_count : Nat
  size_bytes : Nat
  schema_json : Option String
  created_at : Nat
  blocks : List BlockRow
deriving DecidableEq, Repr

/-- A row of the Dataset table (metastore.Dataset) together with its Version
rows, kept in insertion (creation) order.  The source field name is
"namespace", which is a Lean keyword, hence ns. -/
structure DatasetRec where
  ns : String
  name : String
  description : Option String
  created_at : Nat
  versions : List VersionRec
deriving DecidableEq, Repr

/-- The whole relational state owned by MetaStore. -/
structure MetaState where
  datasets : List DatasetRec
deriving DecidableEq, Repr

/-- metastore.VersionInfo: the DTO returned by the metastore operations. -/
structure VersionInfo where
  ns : String
  dataset_name : String
  version : String
  description : Option String
  row_count : Nat
  file_count : Nat
  size_bytes : Nat
  schema_json : Option String
  block_ids : List String
  created_at : Nat
deriving DecidableEq, Repr

/-! ### Generic list helpers used by the embedding -/

/-- Replace the first element satisfying p by its image under f (models an ORM
update of the row found by get_or_none). -/
def updateFirst {α : Type} (p : α → Bool) (f : α → α) : List α → List α
  | [] => []
  | x :: xs => if p x then f x :: xs else x :: updateFirst p f xs

/-- Remove the first element satisfying p (models deleting the row found by
get_or_none). -/
def removeFirst {α : Type} (p : α → Bool) : List α → List α
  | [] => []
  | x :: xs => if p x then xs else x :: removeFirst p xs

/-- Deduplication keeping the first occurrence; models SELECT DISTINCT (the
claims only ever use the result as a set). -/
def dedupAux (seen : List String) : List String → List String
  | [] => []
  | x :: xs => if seen.contains x then dedupAux seen xs
               else x :: dedupAux (x :: seen) xs

def dedup (l : List String) : List String := dedupAux [] l

/-- Ordering of Block rows by block_number, as in order_by(Block.block_number). -/
def blockLE (a b : BlockRow) : Prop := a.block_number ≤ b.block_number

instance : DecidableRel blockLE :=
  fun a b => inferInstanceAs (Decidable (a.block_number ≤ b.block_number))

/-- order_by(Block.block_number) on a version's block rows. -/
def sortBlocks (bs : List BlockRow) : List BlockRow := List.insertionSort blockLE bs

/-! ### MetaStore -/

/-- Dataset.get_or_none(namespace == ns, name == name). -/
def getDataset (st : MetaState) (ns name : String) : Option DatasetRec :=
  st.datasets.find? (fun d => d.ns == ns && d.name == name)

/-- MetaStore._get_version_obj. -/
def getVersionObj (st : MetaState) (ns name version : String) : Option VersionRec :=
  match getDataset st ns name with
  | none => none
  | some d => d.versions.find? (fun v => v.version == version)

/-- MetaStore._version_to_info: block_ids listed in block_number order. -/
def version_to_info (ns name : String) (v : VersionRec) : VersionInfo :=
  { ns := ns
    dataset_name := name
    version := v.version
    description := v.description
    row_count := v.row_count
    file_count := v.file_count
    size_bytes := v.size_bytes
    schema_json := v.schema_json
    block_ids := (sortBlocks v.blocks).map (·.block_id)
    created_at := v.created_at }

/-- The Block.create loop: one Block row per input block at sequential
block_number values starting at start. -/
def mkBlockRows (now : Nat) : Nat → List BlockInfo → List BlockRow
  | _, [] => []
  | start, b :: bs =>
    ⟨start, b.block_id, b.size_bytes, b.row_count, now⟩ :: mkBlockRows now (start + 1) bs

/-- Update the dataset row matching (ns, name), in place. -/
def updateDataset (st : MetaState) (ns name : String) (f : DatasetRec → DatasetRec) :
    MetaState :=
  ⟨updateFirst (fun d => d.ns == ns && d.name == name) f st.datasets⟩

/-- MetaStore.create_dataset_with_version.  Runs in one transaction: on error
the state is returned unchanged.  now models datetime.now(). -/
def create_dataset_with_version (st : MetaState) (ns name version : String)
    (description : Option String) (blocks : List BlockInfo)
    (schema_json : Option String) (now : Nat) : Except Err VersionInfo × MetaState :=
  match getDataset st ns name with
  | some _ => (.error .alreadyExists, st)
  | none =>
    let total_rows := (blocks.map (·.row_count)).sum
    let total_size := (blocks.map (·.size_bytes)).sum
    let version_obj : VersionRec :=
      { version := version
        description := description
        row_count := total_rows
        file_count := blocks.length
        size_bytes := total_size
        schema_json := schema_json
        created_at := now
        blocks := mkBlockRows now 0 blocks }
    let dataset : DatasetRec :=
      { ns := ns, name := name, description := description, created_at := now
        versions := [version_obj] }
    (.ok (version_to_info ns name version_obj), ⟨st.datasets ++ [dataset]⟩)

/-- Python "description or f-string": None and the empty string both fall back
to the default. -/
def descrOr (description : Option String) (dflt : String) : String :=
  match description with
  | none => dflt
  | some s => if s = "" then dflt else s

/-- The new Version row built by MetaStore.add_version: counters are the base
counters plus the sums over new_blocks; the base's Block rows are re-inserted
with their block_number, block_id, size_bytes and row_count (created_at is the
new row's insertion time), followed by rows for new_blocks numbered from
len(existing_blocks). -/
def addVersionRec (base_ver : VersionRec) (base_version new_version : String)
    (new_blocks : List BlockInfo) (description : Option String) (now : Nat) :
    VersionRec :=
  let existing_blocks := sortBlocks base_ver.blocks
  let new_rows := (new_blocks.map (·.row_count)).sum
  let new_size := (new_blocks.map (·.size_bytes)).sum
  { version := new_version
    description := some (descrOr description ("Extended from " ++ base_version))
    row_count := base_ver.row_count + new_rows
    file_count := existing_blocks.length + new_blocks.length
    size_bytes := base_ver.size_bytes + new_size
    schema_json := base_ver.schema_json
    created_at := now
    blocks := existing_blocks.map (fun b => { b with created_at := now })
              ++ mkBlockRows now existing_blocks.length new_blocks }

/-- MetaStore.add_version (copy-on-write fan-out).  The source does not check
the new label itself; inserting a duplicate (dataset, version) pair is rejected
by the database's unique constraint, modelled as constraintViolation with the
transaction rolled back. -/
def add_version (st : MetaState) (ns name base_version new_version : String)
    (new_blocks : List BlockInfo) (description : Option String) (now : Nat) :
    Except Err VersionInfo × MetaState :=
  match getVersionObj st ns name base_version with
  | none => (.error .notFound, st)
  | some base_ver =>
    if (getVersionObj st ns name new_version).isSome then
      (.error .constraintViolation, st)
    else
      let version_obj := addVersionRec base_ver base_version new_version
                           new_blocks description now
      (.ok (version_to_info ns name version_obj),
       updateDataset st ns name (fun d => { d with versions := d.versions ++ [version_obj] }))

/-- The in-place mutation performed by MetaStore.extend_version on the found
Version row: append Block rows numbered from the current row count, then
increment the three counters. -/
def extendVersionRec (v : VersionRec) (new_blocks : List BlockInfo) (now : Nat) :
    VersionRec :=
  { v with
    blocks := v.blocks ++ mkBlockRows now v.blocks.length new_blocks
    row_count := v.row_count + (new_blocks.map (·.row_count)).sum
    size_bytes := v.size_bytes + (new_blocks.map (·.size_bytes)).sum
    file_count := v.file_count + new_blocks.length }

/-- MetaStore.extend_version. -/
def extend_version (st : MetaState) (ns name version : String)
    (new_blocks : List BlockInfo) (now : Nat) : Except Err VersionInfo × MetaState :=
  match getVersionObj st ns name version with
  | none => (.error .notFound, st)
  | some version_obj =>
    (.ok (version_to_info ns name (extendVersionRec version_obj new_blocks now)),
     updateDataset st ns name (fun d =>
       { d with versions := updateFirst (fun v => v.version == version)
                  (fun v => extendVersionRec v new_blocks now) d.versions }))

/-- MetaStore.get_version. -/
def get_version (st : MetaState) (ns name version : String) : Option VersionInfo :=
  (getVersionObj st ns name version).map (version_to_info ns name)

/-- MetaStore.list_versions: labels ordered by created_at descending; versions
are stored in creation order, so this is the reverse of the stored order. -/
def list_versions (st : MetaState) (ns name : String) : List String :=
  match getDataset st ns name with
  | none => []
  | some d => (d.versions.map (·.version)).reverse

/-- MetaStore.delete_dataset: cascading delete; False if the dataset is absent. -/
def delete_dataset (st : MetaState) (ns name : String) : Bool × MetaState :=
  match getDataset st ns name with
  | none => (false, st)
  | some _ =>
    (true, ⟨removeFirst (fun d => d.ns == ns && d.name == name) st.datasets⟩)

/-- MetaStore.delete_version: deletes the Version row and its Block rows. -/
def delete_version (st : MetaState) (ns name version : String) : Bool × MetaState :=
  match getVersionObj st ns name version with
  | none => (false, st)
  | some _ =>
    (true, updateDataset st ns name (fun d =>
      { d with versions := removeFirst (fun v => v.version == version) d.versions }))

/-- MetaStore.get_all_block_ids_for_dataset: distinct block_id over the Block
rows of every version of the dataset ([] when the dataset is absent). -/
def get_all_block_ids_for_dataset (st : MetaState) (ns name : String) : List String :=
  match getDataset st ns name with
  | none => []
  | some d => dedup ((d.versions.flatMap (·.blocks)).map (·.block_id))

/-! ### Version-label arithmetic (DatasetManager._calculate_next_version) -/

/-- Whitespace stripped by Python's int() (ASCII part of str.strip()). -/
def pyWhitespace (c : Char) : Bool :=
  c == ' ' || c == '\t' || c == '\n' || c == '\r' || c == '\x0b' || c == '\x0c'

/-- Digit-string value for Python's int(): digits with single underscores
allowed between digits (no leading, trailing or doubled underscore). -/
def digitsVal (acc : Nat) : List Char → Option Nat
  | [] => some acc
  | c :: cs =>
    if c.isDigit then digitsVal (acc * 10 + (c.toNat - 48)) cs
    else if c == '_' then
      match cs with
      | [] => none
      | c2 :: cs2 =>
        if c2.isDigit then digitsVal (acc * 10 + (c2.toNat - 48)) cs2 else none
    else none

/-- Unsigned part: at least one digit, then digitsVal. -/
def parseDigits : List Char → Option Nat
  | [] => none
  | c :: cs => if c.isDigit then digitsVal (c.toNat - 48) cs else none

/-- Python's int(str) on ASCII input: optional surrounding whitespace, optional
sign, digits with underscores between digits; None when the call would raise
ValueError. -/
def pyInt (s : String) : Option Int :=
  let cs := (((s.toList.dropWhile pyWhitespace).reverse.dropWhile pyWhitespace).reverse)
  match cs with
  | '+' :: rest => (parseDigits rest).map (fun n => (n : Int))
  | '-' :: rest => (parseDigits rest).map (fun n => -(n : Int))
  | rest => (parseDigits rest).map (fun n => (n : Int))

/-- Python str.replace("v", "") : removes every occurrence of the one-character
substring "v", i.e. filters out the character v. -/
def stripV (s : String) : String := ⟨s.toList.filter (fun c => c ≠ 'v')⟩

/-- DatasetManager._calculate_next_version: "v1" on an empty list; otherwise
collect int(v.replace("v", "")) over the labels where that parse succeeds and
return "v" followed by max+1, falling back to "v1" when no label parses. -/
def calculate_next_version (existing_versions : List String) : String :=
  if existing_versions.isEmpty then "v1"
  else
    let version_numbers := existing_versions.filterMap (fun v => pyInt (stripV v))
    match version_numbers with
    | [] => "v1"
    | n :: rest => "v" ++ toString (rest.foldl max n + 1)

/-- The label pattern stated by the specification: the character v followed by
a positive decimal integer with no leading zero. -/
def specLabelNum (s : String) : Option Nat :=
  match s.toList with
  | 'v' :: c :: cs =>
    if c.isDigit && c ≠ '0' && cs.all (·.isDigit) then
      some (cs.foldl (fun acc d => acc * 10 + (d.toNat - 48)) (c.toNat - 48))
    else none
  | _ => none

/-- The next-version rule exactly as the specification words it: labels
matching the spec pattern contribute their numeric suffix; the result is "v"
followed by max+1, or "v1" when the list is empty or no label matches. -/
def specNextVersion (labels : List String) : String :=
  match (labels.filterMap specLabelNum).max? with
  | some m => "v" ++ toString (m + 1)
  | none => "v1"

/-- The amended next-version rule: a label contributes the value of Python's
int() applied to the label with every v character removed (so signs, leading
zeros and underscores between digits are accepted); the result is "v" followed
by max+1 over the contributing labels, or "v1" when none contributes. -/
def amendedNextVersion (labels : List String) : String :=
  match (labels.filterMap (fun v => pyInt (stripV v))).max? with
  | some m => "v" ++ toString (m + 1)
  | none => "v1"

/-! ### DataStore (datastore.py) -/

/-- The physical coordinates of a block: (namespace, dataset_name, block_id),
i.e. the path namespace/dataset_name/block_id.parquet. -/
abbrev PhysKey := String × String × String

/-- The set of physically stored blocks of a backend (local directory tree or
blob container). -/
structure DataState where
  blocks : List PhysKey
deriving DecidableEq, Repr

/-- An abstract pyarrow Table: its length, the physical size the store reports
for it on write, and json.dumps of its schema mapping. -/
structure Table where
  row_count : Nat
  size_bytes : Nat
  schema_json : String
deriving DecidableEq, Repr

/-- LocalDataStore.write_block: persists the block at its path and returns the
file size. -/
def write_block (store : DataState) (tbl : Table) (ns dataset_name block_id : String) :
    DataState × Nat :=
  (⟨if store.blocks.contains (ns, dataset_name, block_id) then store.blocks
    else store.blocks ++ [(ns, dataset_name, block_id)]⟩, tbl.size_bytes)

/-- LocalDataStore.delete_block: os.remove guarded by os.path.exists, so an
absent block is a no-op and no error is possible. -/
def delete_block (store : DataState) (ns dataset_name block_id : String) : DataState :=
  ⟨store.blocks.filter (fun k => k ≠ (ns, dataset_name, block_id))⟩

/-- Azure SDK error raised by BlobClient.delete_blob on a missing blob. -/
inductive AzureErr where
  | resourceNotFound
deriving DecidableEq, Repr

/-- AzureDataStore.delete_block: builds the blob path and calls
BlobClient.delete_blob with no arguments; the Azure SDK raises
ResourceNotFoundError when the blob does not exist. -/
def azure_delete_block (store : DataState) (ns dataset_name block_id : String) :
    Except AzureErr DataState :=
  if store.blocks.contains (ns, dataset_name, block_id) then
    .ok (delete_block store ns dataset_name block_id)
  else .error .resourceNotFound

/-! ### DatasetManager (manager.py) -/

/-- Character-level model of Python str.split("/") (the separator is the single
character /): splits at every separator occurrence, keeping empty segments. -/
def splitChars (sep : Char) : List Char → List Char → List String
  | acc, [] => [⟨acc.reverse⟩]
  | acc, c :: cs =>
    if c = sep then String.mk acc.reverse :: splitChars sep [] cs
    else splitChars sep (c :: acc) cs

def pySplit (s : String) (sep : Char) : List String := splitChars sep [] s.toList

/-- DatasetManager.create: parse the name, generate a block id (passed in as
block_id, modelling uuid4), write the block to the datastore first, then record
the metadata; a metastore failure propagates after the physical write. -/
def manager_create (meta : MetaState) (data : DataState) (name description : String)
    (tbl : Table) (block_id : String) (now : Nat) :
    Except Err String × MetaState × DataState :=
  match pySplit name '/' with
  | [ns, dataset_name] =>
    let wd := write_block data tbl ns dataset_name block_id
    let r := create_dataset_with_version meta ns dataset_name "v1" (some description)
               [⟨block_id, wd.2, tbl.row_count⟩] (some tbl.schema_json) now
    match r.1 with
    | .ok _ => (.ok (ns ++ "/" ++ dataset_name ++ "/v1"), r.2, wd.1)
    | .error e => (.error e, r.2, wd.1)
  | _ => (.error .invalidName, meta, data)

/-- DatasetManager.extend: parse the versioned name, write the fresh block,
then either add a new version (copy-on-write, with the next label computed from
list_versions) or extend the source version in place. -/
def manager_extend (meta : MetaState) (data : DataState) (name : String)
    (tbl : Table) (block_id : String) (create_new_version : Bool) (now : Nat) :
    Except Err String × MetaState × DataState :=
  match pySplit name '/' with
  | [ns, dataset_name, source_version] =>
    let wd := write_block data tbl ns dataset_name block_id
    let new_block : BlockInfo := ⟨block_id, wd.2, tbl.row_count⟩
    if create_new_version then
      let all_versions := list_versions meta ns dataset_name
      let next_version := calculate_next_version all_versions
      let r := add_version meta ns dataset_name source_version next_version
                 [new_block] (some ("Extended from " ++ source_version)) now
      match r.1 with
      | .ok _ => (.ok (ns ++ "/" ++ dataset_name ++ "/" ++ next_version), r.2, wd.1)
      | .error e => (.error e, r.2, wd.1)
    else
      let r := extend_version meta ns dataset_name source_version [new_block] now
      match r.1 with
      | .ok _ => (.ok (ns ++ "/" ++ dataset_name ++ "/" ++ source_version), r.2, wd.1)
      | .error e => (.error e, r.2, wd.1)
  | _ => (.error .invalidName, meta, data)

/-- Observable side effects of DatasetManager.erase, in the order the source
performs them. -/
inductive Event where
  | physDelete (ns dataset_name block_id : String)
  | metaDeleteVersion (ns dataset_name version : String)
  | metaDeleteDataset (ns dataset_name : String)
deriving DecidableEq, Repr

/-- Apply the best-effort physical deletion loop (each datastore.delete_block
wrapped in try/except) to the data state. -/
def applyPhysDeletes (data : DataState) (ns dataset_name : String)
    (ids : List String) : DataState :=
  ids.foldl (fun d bid => delete_block d ns dataset_name bid) data

/-- DatasetManager.erase.  Two segments: collect all block ids of the dataset,
physically delete each of them, then delete the dataset metadata (raising
NotFound when the dataset was absent).  Three segments: read the target
version's block ids, delete the version metadata row, re-read the dataset's
remaining block ids, and physically delete the ids of the erased version that
no longer remain.  The event list records the deletions in source order. -/
def manager_erase (meta : MetaState) (data : DataState) (name : String) :
    Except Err Unit × MetaState × DataState × List Event :=
  match pySplit name '/' with
  | [ns, dataset_name] =>
    let all_block_ids := get_all_block_ids_for_dataset meta ns dataset_name
    let data1 := applyPhysDeletes data ns dataset_name all_block_ids
    let physEvts := all_block_ids.map (Event.physDelete ns dataset_name)
    let del := delete_dataset meta ns dataset_name
    if del.1 then
      (.ok (), del.2, data1, physEvts ++ [Event.metaDeleteDataset ns dataset_name])
    else (.error .notFound, del.2, data1, physEvts)
  | [ns, dataset_name, version] =>
    match get_version meta ns dataset_name version with
    | none => (.error .notFound, meta, data, [])
    | some version_info =>
      let version_block_ids := dedup version_info.block_ids
      let del := delete_version meta ns dataset_name version
      let remaining_block_ids := get_all_block_ids_for_dataset del.2 ns dataset_name
      let blocks_to_delete :=
        version_block_ids.filter (fun b => !remaining_block_ids.contains b)
      let data1 := applyPhysDeletes data ns dataset_name blocks_to_delete
      (.ok (), del.2, data1,
       Event.metaDeleteVersion ns dataset_name version
         :: blocks_to_delete.map (Event.physDelete ns dataset_name))
  | _ => (.error .invalidName, meta, data, [])

/-- One entry of the listing produced for the list endpoint and the CLI. -/
structure DatasetSummary where
  name : String
  ns : String
  dataset : String
  version : String
  row_count : Nat
  created_at : Nat
deriving DecidableEq, Repr

/-- Summary entry for one (dataset, version) pair, with name the full qualified
name, as asserted by the tests (datasets[0]["name"] == "test/users/v1") and
displayed by the CLI. -/
def summaryOf (d : DatasetRec) (v : VersionRec) : DatasetSummary :=
  { name := d.ns ++ "/" ++ d.name ++ "/" ++ v.version
    ns := d.ns
    dataset := d.name
    version := v.version
    row_count := v.row_count
    created_at := v.created_at }

/-- Namespace filter of the listing: no filter, or equality with the requested
namespace. -/
def nsMatches (ns_filter : Option String) (d : DatasetRec) : Bool :=
  match ns_filter with
  | none => true
  | some f => d.ns == f

/-- Modelled from the spec: DatasetManager.list is absent from the sources
(only its callers, the /api/v1/datasets/list endpoint in main.py and the CLI
list command, and the tests appear).  Spec: flattened list of every
(dataset, version) pair, optionally filtered by namespace, carrying
name/namespace/version/row_count/created_at for display. -/
def manager_list (meta : MetaState) (ns_filter : Option String) : List DatasetSummary :=
  (meta.datasets.filter (nsMatches ns_filter)).flatMap
    (fun d => d.versions.map (summaryOf d))

/-! ### Invariants -/

/-- The counter invariant of a Version row: row_count, size_bytes and
file_count agree with its Block rows. -/
def versionCountersOk (v : VersionRec) : Bool :=
  v.row_count == (v.blocks.map (·.row_count)).sum &&
  v.size_bytes == (v.blocks.map (·.size_bytes)).sum &&
  v.file_count == v.blocks.length

/-- The Block rows of a version sit at gapless positions 0..n-1 in row order. -/
def versionPositional (v : VersionRec) : Bool :=
  (v.blocks.map (·.block_number)) == List.range v.blocks.length

/-- Counter invariant over the whole metadata state. -/
def metaCountersOk (st : MetaState) : Bool :=
  st.datasets.all (fun d => d.versions.all versionCountersOk)

/-- Positional invariant over the whole metadata state. -/
def metaPositional (st : MetaState) : Bool :=
  st.datasets.all (fun d => d.versions.all versionPositional)

/-- A block id is referenced by some version of the dataset at the given
coordinates. -/
def referencedInMeta (meta : MetaState) (ns dataset_name block_id : String) : Bool :=
  meta.datasets.any (fun d => d.ns == ns && d.name == dataset_name &&
    d.versions.any (fun v => v.blocks.any (fun b => b.block_id == block_id)))

/-- The physically stored blocks that no version of their dataset references
(the orphaned blocks). -/
def orphanBlocks (meta : MetaState) (data : DataState) : List PhysKey :=
  data.blocks.filter (fun k => !referencedInMeta meta k.1 k.2.1 k.2.2)

/-- Is an event a physical block deletion? -/
def isPhysEvent : Event → Bool
  | .physDelete .. => true
  | _ => false

/-- Is an event a metadata deletion? -/
def isMetaEvent : Event → Bool
  | .physDelete .. => false
  | _ => true

/-- The ordering property claimed for erase traces: no physical deletion is
performed before the first metadata deletion. -/
def physOnlyAfterMeta (evts : List Event) : Bool :=
  (evts.takeWhile (fun e => !isMetaEvent e)).all (fun e => !isPhysEvent e)

/-- Example version v1 with the single block b1. -/
def exampleV1 : VersionRec :=
  ⟨"v1", some "x", 5, 1, 10, some "sj", 1, [⟨0, "b1", 10, 5, 1⟩]⟩

/-- Example version v2 sharing b1 with v1 and adding b2 (copy-on-write). -/
def exampleV2 : VersionRec :=
  ⟨"v2", some "y", 8, 2, 16, some "sj", 2, [⟨0, "b1", 10, 5, 2⟩, ⟨1, "b2", 6, 3, 2⟩]⟩

/-- Example dataset ns/d with versions v1 and v2. -/
def exampleDataset : DatasetRec := ⟨"ns", "d", some "ds", 0, [exampleV1, exampleV2]⟩

/-- Example metadata state: one dataset ns/d with versions v1 = [b1] and
v2 = [b1, b2] (block b1 shared, copy-on-write). -/
def exampleMeta : MetaState := ⟨[exampleDataset]⟩

/-- The VersionInfo DTO for exampleV2. -/
def exampleV2Info : VersionInfo :=
  ⟨"ns", "d", "v2", some "y", 8, 2, 16, some "sj", ["b1", "b2"], 2⟩

/-- Physical store matching exampleMeta. -/
def exampleData : DataState := ⟨[("ns", "d", "b1"), ("ns", "d", "b2")]⟩

example : calculate_next_version ["v1", "v3"] = "v4" := by decide
example : calculate_next_version [] = "v1" := by decide
example : calculate_next_version ["v01"] = "v2" := by decide
example : calculate_next_version ["foo"] = "v1" := by decide
example : calculate_next_version ["v-3"] = "v-2" := by decide
example : specNextVersion ["v01"] = "v1" := by decide
example : pyInt "01" = some 1 := by decide
example : pyInt " -3 " = some (-3) := by decide
example : pyInt "1_0" = some 10 := by decide
example : pyInt "1__0" = none := by decide
example : pyInt "" = none := by decide
example : metaCountersOk exampleMeta = true := by decide
example : metaPositional exampleMeta = true := by decide
example :
    (manager_erase exampleMeta exampleData "ns/d").2.2.2 =
      [Event.physDelete "ns" "d" "b1", Event.physDelete "ns" "d" "b2",
       Event.metaDeleteDataset "ns" "d"] := by decide
example : physOnlyAfterMeta (manager_erase exampleMeta exampleData "ns/d").2.2.2 = false := by
  decide
example :
    (manager_erase exampleMeta exampleData "ns/d/v2").2.2.2 =
      [Event.metaDeleteVersion "ns" "d" "v2", Event.physDelete "ns" "d" "b2"] := by decide
example :
    (manager_erase exampleMeta exampleData "ns/d/v1").2.2.2 =
      [Event.metaDeleteVersion "ns" "d" "v1"] := by decide

/-! ### Helper lemmas -/

theorem contains_iff {α : Type} [BEq α] [LawfulBEq α] (l : List α) (a : α) :
    l.contains a = true ↔ a ∈ l := List.elem_iff

theorem mem_dedupAux (a : String) (l : List String) :
    ∀ seen : List String, a ∈ dedupAux seen l ↔ a ∈ l ∧ a ∉ seen := by
  induction l with
  | nil => intro seen; simp [dedupAux]
  | cons x xs ih =>
    intro seen
    by_cases hx : seen.contains x = true
    · rw [dedupAux, if_pos hx, ih]
      have hxs : x ∈ seen := (contains_iff seen x).mp hx
      constructor
      · rintro ⟨hm, hns⟩; exact ⟨List.mem_cons_of_mem _ hm, hns⟩
      · rintro ⟨hm, hns⟩
        rcases List.mem_cons.mp hm with rfl | hm
        · exact absurd hxs hns
        · exact ⟨hm, hns⟩
    · rw [dedupAux, if_neg hx, List.mem_cons, ih]
      have hxs : x ∉ seen := fun hmem => hx ((contains_iff seen x).mpr hmem)
      constructor
      · rintro (rfl | ⟨hm, hns⟩)
        · exact ⟨List.mem_cons_self _ _, hxs⟩
        · refine ⟨List.mem_cons_of_mem _ hm, fun hmem => hns (List.mem_cons_of_mem _ hmem)⟩
      · rintro ⟨hm, hns⟩
        rcases List.mem_cons.mp hm with rfl | hm
        · exact Or.inl rfl
        · by_cases hax : a = x
          · exact Or.inl hax
          · exact Or.inr ⟨hm, fun hmem => by
              rcases List.mem_cons.mp hmem with h1 | h1
              · exact hax h1
              · exact hns h1⟩

theorem mem_dedup (a : String) (l : List String) : a ∈ dedup l ↔ a ∈ l := by
  rw [dedup, mem_dedupAux]; simp

theorem updateFirst_all {α : Type} (P q : α → Bool) (f : α → α)
    (hf : ∀ x, P x = true → P (f x) = true) :
    ∀ l : List α, l.all P = true → (updateFirst q f l).all P = true := by
  intro l hl
  induction l with
  | nil => simp [updateFirst]
  | cons x xs ih =>
    rw [List.all_cons, Bool.and_eq_true] at hl
    by_cases hq : q x = true
    · rw [updateFirst, if_pos hq, List.all_cons, Bool.and_eq_true]
      exact ⟨hf x hl.1, hl.2⟩
    · rw [updateFirst, if_neg hq, List.all_cons, Bool.and_eq_true]
      exact ⟨hl.1, ih hl.2⟩

theorem find?_updateFirst {α : Type} (q : α → Bool) (f : α → α)
    (hq : ∀ x, q (f x) = q x) :
    ∀ l : List α, (updateFirst q f l).find? q = (l.find? q).map f := by
  intro l
  induction l with
  | nil => simp [updateFirst]
  | cons x xs ih =>
    by_cases hx : q x = true
    · rw [updateFirst, if_pos hx, List.find?_cons_of_pos _ ((hq x).symm ▸ hx),
        List.find?_cons_of_pos _ hx, Option.map_some']
    · rw [updateFirst, if_neg hx, List.find?_cons_of_neg _ (by simpa [hq x] using hx),
        List.find?_cons_of_neg _ (by simpa using hx), ih]

theorem mkBlockRows_map_block_id (now : Nat) :
    ∀ (s : Nat) (bs : List BlockInfo),
      (mkBlockRows now s bs).map (·.block_id) = bs.map (·.block_id)
  | _, [] => rfl
  | s, b :: bs => by
    simp only [mkBlockRows, List.map_cons, mkBlockRows_map_block_id now (s + 1) bs]

theorem mkBlockRows_map_row_count (now : Nat) :
    ∀ (s : Nat) (bs : List BlockInfo),
      (mkBlockRows now s bs).map (·.row_count) = bs.map (·.row_count)
  | _, [] => rfl
  | s, b :: bs => by
    simp only [mkBlockRows, List.map_cons, mkBlockRows_map_row_count now (s + 1) bs]

theorem mkBlockRows_map_size_bytes (now : Nat) :
    ∀ (s : Nat) (bs : List BlockInfo),
      (mkBlockRows now s bs).map (·.size_bytes) = bs.map (·.size_bytes)
  | _, [] => rfl
  | s, b :: bs => by
    simp only [mkBlockRows, List.map_cons, mkBlockRows_map_size_bytes now (s + 1) bs]

theorem mkBlockRows_length (now : Nat) :
    ∀ (s : Nat) (bs : List BlockInfo), (mkBlockRows now s bs).length = bs.length
  | _, [] => rfl
  | s, b :: bs => by
    simp only [mkBlockRows, List.length_cons, mkBlockRows_length now (s + 1) bs]

theorem mkBlockRows_map_block_number (now : Nat) :
    ∀ (s : Nat) (bs : List BlockInfo),
      (mkBlockRows now s bs).map (·.block_number) = List.range' s bs.length
  | _, [] => rfl
  | s, b :: bs => by
    simp only [mkBlockRows, List.map_cons, mkBlockRows_map_block_number now (s + 1) bs,
      List.length_cons, List.range']

theorem sortBlocks_perm (bs : List BlockRow) : (sortBlocks bs).Perm bs :=
  List.perm_insertionSort blockLE bs

theorem sortBlocks_map_sum (g : BlockRow → Nat) (bs : List BlockRow) :
    ((sortBlocks bs).map g).sum = (bs.map g).sum :=
  ((sortBlocks_perm bs).map g).sum_eq

theorem sortBlocks_length (bs : List BlockRow) : (sortBlocks bs).length = bs.length :=
  (sortBlocks_perm bs).length_eq

theorem positional_sortBlocks_eq {v : VersionRec} (h : versionPositional v = true) :
    sortBlocks v.blocks = v.blocks := by
  apply List.Sorted.insertionSort_eq
  have hmap : v.blocks.map (·.block_number) = List.range v.blocks.length := by
    simpa [versionPositional] using h
  have hpw := List.pairwise_lt_range v.blocks.length
  rw [← hmap, List.pairwise_map] at hpw
  exact hpw.imp (fun hlt => Nat.le_of_lt hlt)

theorem versionCountersOk_iff (v : VersionRec) :
    versionCountersOk v = true ↔
      v.row_count = (v.blocks.map (·.row_count)).sum ∧
      v.size_bytes = (v.blocks.map (·.size_bytes)).sum ∧
      v.file_count = v.blocks.length := by
  simp [versionCountersOk, and_assoc]

theorem metaCountersOk_iff (st : MetaState) :
    metaCountersOk st = true ↔
      ∀ d ∈ st.datasets, ∀ v ∈ d.versions, versionCountersOk v = true := by
  simp [metaCountersOk]

theorem getDataset_updateDataset (st : MetaState) (ns name : String)
    (f : DatasetRec → DatasetRec) (hf : ∀ d, (f d).ns = d.ns ∧ (f d).name = d.name) :
    getDataset (updateDataset st ns name f) ns name = (getDataset st ns name).map f := by
  unfold getDataset updateDataset
  exact find?_updateFirst _ f (fun x => by rw [(hf x).1, (hf x).2]) st.datasets

theorem create_dataset_ok (st : MetaState) (ns name ver : String) (descr : Option String)
    (bs : List BlockInfo) (sj : Option String) (now : Nat) (vi : VersionInfo)
    (st1 : MetaState)
    (hs : create_dataset_with_version st ns name ver descr bs sj now = (.ok vi, st1)) :
    getDataset st ns name = none ∧
    ∃ vrec : VersionRec,
      vrec.blocks = mkBlockRows now 0 bs ∧
      vrec.row_count = (bs.map (·.row_count)).sum ∧
      vrec.size_bytes = (bs.map (·.size_bytes)).sum ∧
      vrec.file_count = bs.length ∧
      vi = version_to_info ns name vrec ∧
      st1 = ⟨st.datasets ++ [⟨ns, name, descr, now, [vrec]⟩]⟩ := by
  unfold create_dataset_with_version at hs
  cases hd : getDataset st ns name with
  | some d => rw [hd] at hs; exact absurd hs (by simp)
  | none =>
    rw [hd] at hs
    simp only [Prod.mk.injEq, Except.ok.injEq] at hs
    exact ⟨rfl, _, rfl, rfl, rfl, rfl, hs.1.symm, hs.2.symm⟩

theorem add_version_ok (st : MetaState) (ns name bv nv : String) (nbs : List BlockInfo)
    (descr : Option String) (now : Nat) (vi : VersionInfo) (st1 : MetaState)
    (hs : add_version st ns name bv nv nbs descr now = (.ok vi, st1)) :
    ∃ bver, getVersionObj st ns name bv = some bver ∧
      getVersionObj st ns name nv = none ∧
      vi = version_to_info ns name (addVersionRec bver bv nv nbs descr now) ∧
      st1 = updateDataset st ns name (fun d =>
        { d with versions := d.versions ++ [addVersionRec bver bv nv nbs descr now] }) := by
  unfold add_version at hs
  cases hb : getVersionObj st ns name bv with
  | none => rw [hb] at hs; exact absurd hs (by simp)
  | some bver =>
    rw [hb] at hs
    cases hn : getVersionObj st ns name nv with
    | some w => rw [hn] at hs; simp at hs
    | none =>
      rw [hn] at hs
      simp only [Option.isSome_none, Bool.false_eq_true, if_false,
        Prod.mk.injEq, Except.ok.injEq] at hs
      exact ⟨bver, rfl, rfl, hs.1.symm, hs.2.symm⟩

theorem extend_version_ok (st : MetaState) (ns name ver : String) (nbs : List BlockInfo)
    (now : Nat) (vi : VersionInfo) (st1 : MetaState)
    (hs : extend_version st ns name ver nbs now = (.ok vi, st1)) :
    ∃ vobj, getVersionObj st ns name ver = some vobj ∧
      vi = version_to_info ns name (extendVersionRec vobj nbs now) ∧
      st1 = updateDataset st ns name (fun d =>
        { d with versions := updateFirst (fun v => v.version == ver)
                   (fun v => extendVersionRec v nbs now) d.versions }) := by
  unfold extend_version at hs
  cases hb : getVersionObj st ns name ver with
  | none => rw [hb] at hs; exact absurd hs (by simp)
  | some vobj =>
    rw [hb] at hs
    simp only [Prod.mk.injEq, Except.ok.injEq] at hs
    exact ⟨vobj, rfl, hs.1.symm, hs.2.symm⟩

theorem versionCountersOk_mkVersion (bs : List BlockInfo) (now : Nat) (vrec : VersionRec)
    (hblocks : vrec.blocks = mkBlockRows now 0 bs)
    (hr : vrec.row_count = (bs.map (·.row_count)).sum)
    (hsz : vrec.size_bytes = (bs.map (·.size_bytes)).sum)
    (hf : vrec.file_count = bs.length) :
    versionCountersOk vrec = true := by
  rw [versionCountersOk_iff, hblocks, hr, hsz, hf]
  exact ⟨(mkBlockRows_map_row_count now 0 bs).symm ▸ rfl,
    (mkBlockRows_map_size_bytes now 0 bs).symm ▸ rfl,
    (mkBlockRows_length now 0 bs).symm ▸ rfl⟩

theorem versionCountersOk_addVersionRec (bver : VersionRec) (bv nv : String)
    (nbs : List BlockInfo) (descr : Option String) (now : Nat)
    (h : versionCountersOk bver = true) :
    versionCountersOk (addVersionRec bver bv nv nbs descr now) = true := by
  rw [versionCountersOk_iff] at h ⊢
  obtain ⟨hr, hsz, hf⟩ := h
  unfold addVersionRec
  refine ⟨?_, ?_, ?_⟩
  · have hcomp : ((fun x : BlockRow => x.row_count) ∘ fun b : BlockRow =>
        { b with created_at := now }) = fun b : BlockRow => b.row_count := rfl
    simp only [List.map_append, List.sum_append, List.map_map, hcomp]
    rw [sortBlocks_map_sum, mkBlockRows_map_row_count, ← hr]
  · have hcomp : ((fun x : BlockRow => x.size_bytes) ∘ fun b : BlockRow =>
        { b with created_at := now }) = fun b : BlockRow => b.size_bytes := rfl
    simp only [List.map_append, List.sum_append, List.map_map, hcomp]
    rw [sortBlocks_map_sum, mkBlockRows_map_size_bytes, ← hsz]
  · simp only [List.length_append, List.length_map, mkBlockRows_length]

theorem versionCountersOk_extendVersionRec (v : VersionRec) (nbs : List BlockInfo)
    (now : Nat) (h : versionCountersOk v = true) :
    versionCountersOk (extendVersionRec v nbs now) = true := by
  rw [versionCountersOk_iff] at h ⊢
  obtain ⟨hr, hsz, hf⟩ := h
  unfold extendVersionRec
  refine ⟨?_, ?_, ?_⟩
  · simp only [List.map_append, List.sum_append, mkBlockRows_map_row_count, hr]
  · simp only [List.map_append, List.sum_append, mkBlockRows_map_size_bytes, hsz]
  · simp only [List.length_append, mkBlockRows_length, hf]

theorem metaCountersOk_updateDataset (st : MetaState) (ns name : String)
    (f : DatasetRec → DatasetRec)
    (hf : ∀ d, d.versions.all versionCountersOk = true →
      (f d).versions.all versionCountersOk = true)
    (h : metaCountersOk st = true) : metaCountersOk (updateDataset st ns name f) = true := by
  unfold metaCountersOk updateDataset at *
  exact updateFirst_all _ _ f hf st.datasets h

theorem physKey_eq_iff (k : PhysKey) (ns ds bid : String) :
    k = (ns, ds, bid) ↔ k.1 = ns ∧ k.2.1 = ds ∧ k.2.2 = bid := by
  obtain ⟨a, b, c⟩ := k
  simp [Prod.ext_iff]

theorem mem_delete_block (data : DataState) (ns ds bid : String) (k : PhysKey) :
    k ∈ (delete_block data ns ds bid).blocks ↔
      k ∈ data.blocks ∧ ¬(k.1 = ns ∧ k.2.1 = ds ∧ k.2.2 = bid) := by
  unfold delete_block
  rw [show ((⟨List.filter (fun k => decide ¬k = (ns, ds, bid)) data.blocks⟩ : DataState)).blocks
      = List.filter (fun k => decide ¬k = (ns, ds, bid)) data.blocks from rfl]
  rw [List.mem_filter, decide_eq_true_eq, physKey_eq_iff]

theorem mem_applyPhysDeletes (ns ds : String) (ids : List String) :
    ∀ (data : DataState) (k : PhysKey),
      k ∈ (applyPhysDeletes data ns ds ids).blocks ↔
        k ∈ data.blocks ∧ ¬(k.1 = ns ∧ k.2.1 = ds ∧ k.2.2 ∈ ids) := by
  induction ids with
  | nil => intro data k; simp [applyPhysDeletes]
  | cons i is ih =>
    intro data k
    have hstep : applyPhysDeletes data ns ds (i :: is) =
        applyPhysDeletes (delete_block data ns ds i) ns ds is := rfl
    rw [hstep, ih, mem_delete_block, List.mem_cons]
    constructor
    · rintro ⟨⟨hk, hni⟩, hnis⟩
      refine ⟨hk, fun hc => ?_⟩
      rcases hc.2.2 with h1 | h1
      · exact hni ⟨hc.1, hc.2.1, h1⟩
      · exact hnis ⟨hc.1, hc.2.1, h1⟩
    · rintro ⟨hk, hn⟩
      exact ⟨⟨hk, fun hc => hn ⟨hc.1, hc.2.1, Or.inl hc.2.2⟩⟩,
        fun hc => hn ⟨hc.1, hc.2.1, Or.inr hc.2.2⟩⟩

theorem mem_get_all_block_ids (st : MetaState) (ns name bid : String) :
    bid ∈ get_all_block_ids_for_dataset st ns name ↔
      ∃ d, getDataset st ns name = some d ∧
        ∃ v ∈ d.versions, ∃ b ∈ v.blocks, b.block_id = bid := by
  unfold get_all_block_ids_for_dataset
  cases hd : getDataset st ns name with
  | none => simp
  | some d =>
    rw [mem_dedup]
    simp only [List.mem_map, List.mem_flatMap, Option.some.injEq]
    constructor
    · rintro ⟨b, ⟨v, hv, hb⟩, hid⟩
      exact ⟨d, rfl, v, hv, b, hb, hid⟩
    · rintro ⟨d2, hd2, v, hv, b, hb, hid⟩
      subst hd2
      exact ⟨b, ⟨v, hv, hb⟩, hid⟩

theorem getVersionObj_eq_find (st : MetaState) (ns name lbl : String) (d : DatasetRec)
    (hd : getDataset st ns name = some d) :
    getVersionObj st ns name lbl = d.versions.find? (fun v => v.version == lbl) := by
  unfold getVersionObj
  rw [hd]

theorem getVersionObj_mem (st : MetaState) (ns name lbl : String) (v : VersionRec)
    (h : getVersionObj st ns name lbl = some v) :
    ∃ d ∈ st.datasets, v ∈ d.versions := by
  unfold getVersionObj at h
  cases hd : getDataset st ns name with
  | none => rw [hd] at h; exact absurd h (by simp)
  | some d =>
    rw [hd] at h
    unfold getDataset at hd
    exact ⟨d, List.mem_of_find?_eq_some hd, List.mem_of_find?_eq_some h⟩

theorem getVersionObj_dataset_some (st : MetaState) (ns name lbl : String) (v : VersionRec)
    (h : getVersionObj st ns name lbl = some v) :
    ∃ d, getDataset st ns name = some d ∧
      d.versions.find? (fun w => w.version == lbl) = some v := by
  unfold getVersionObj at h
  cases hd : getDataset st ns name with
  | none => rw [hd] at h; exact absurd h (by simp)
  | some d => rw [hd] at h; exact ⟨d, rfl, h⟩

theorem add_version_lookups (st : MetaState) (ns name bv nv : String)
    (nbs : List BlockInfo) (descr : Option String) (now : Nat) (bver : VersionRec)
    (hb : getVersionObj st ns name bv = some bver)
    (hn : getVersionObj st ns name nv = none) :
    getVersionObj (updateDataset st ns name (fun d =>
        { d with versions := d.versions ++ [addVersionRec bver bv nv nbs descr now] }))
      ns name nv = some (addVersionRec bver bv nv nbs descr now) ∧
    getVersionObj (updateDataset st ns name (fun d =>
        { d with versions := d.versions ++ [addVersionRec bver bv nv nbs descr now] }))
      ns name bv = some bver := by
  obtain ⟨d, hd, hfind⟩ := getVersionObj_dataset_some st ns name bv bver hb
  have hnone : d.versions.find? (fun w => w.version == nv) = none := by
    rw [getVersionObj_eq_find st ns name nv d hd] at hn
    exact hn
  have hd1 : getDataset (updateDataset st ns name (fun dd =>
      { dd with versions := dd.versions ++ [addVersionRec bver bv nv nbs descr now] }))
      ns name = some { d with versions := d.versions ++ [addVersionRec bver bv nv nbs descr now] } := by
    rw [getDataset_updateDataset st ns name (fun dd =>
      { dd with versions := dd.versions ++ [addVersionRec bver bv nv nbs descr now] })
      (fun dd => ⟨rfl, rfl⟩), hd, Option.map_some']
  constructor
  · rw [getVersionObj_eq_find _ ns name nv _ hd1]
    rw [show ({ d with versions := d.versions ++ [addVersionRec bver bv nv nbs descr now] }
        : DatasetRec).versions = d.versions ++ [addVersionRec bver bv nv nbs descr now] from rfl]
    rw [List.find?_append, hnone, Option.none_or]
    have hvq : ((addVersionRec bver bv nv nbs descr now).version == nv) = true := by
      simp [addVersionRec]
    exact List.find?_cons_of_pos [] hvq
  · rw [getVersionObj_eq_find _ ns name bv _ hd1]
    rw [show ({ d with versions := d.versions ++ [addVersionRec bver bv nv nbs descr now] }
        : DatasetRec).versions = d.versions ++ [addVersionRec bver bv nv nbs descr now] from rfl]
    rw [List.find?_append, hfind]
    rfl

/-! ### Claim theorems -/

/-- C5, counterexample: the claim's next-version rule (only labels of the form
v followed by a positive decimal integer with no leading zero count) disagrees
with the code on the label list containing just v01: the code parses v01 as 1
and returns v2, while the claimed rule ignores it and returns v1. -/
theorem calculate_next_version_claim_cx :
    calculate_next_version ["v01"] = "v2" ∧ specNextVersion ["v01"] = "v1" ∧
      calculate_next_version ["v01"] ≠ specNextVersion ["v01"] := by
  refine ⟨by decide, by decide, by decide⟩

/-- C5, amended: the next version label equals "v" followed by max+1 over the
labels whose text, after removing every v character, parses under Python's
int() (so signed numbers, leading zeros, surrounding whitespace and
underscores between digits all contribute), and it is "v1" when the list is
empty or no label parses. -/
theorem calculate_next_version_amended (labels : List String) :
    calculate_next_version labels = amendedNextVersion labels := by
  unfold calculate_next_version amendedNextVersion
  cases labels with
  | nil => rfl
  | cons a as =>
    rw [if_neg (by simp)]
    cases hm : (a :: as).filterMap (fun v => pyInt (stripV v)) with
    | nil => rfl
    | cons n rest => rfl

/-- C6: creating a dataset whose (namespace, name) already exists fails with
AlreadyExists and returns the metadata state unchanged, so the existing
dataset, its versions and its block rows are untouched. -/
theorem create_on_existing_dataset (st : MetaState) (ns name ver : String)
    (descr : Option String) (bs : List BlockInfo) (sj : Option String) (now : Nat)
    (d : DatasetRec) (h : getDataset st ns name = some d) :
    create_dataset_with_version st ns name ver descr bs sj now =
      (.error .alreadyExists, st) := by
  unfold create_dataset_with_version
  rw [h]

/-- Witness for C6 at the example state. -/
theorem create_on_existing_dataset_witness :
    getDataset exampleMeta "ns" "d" = some exampleDataset ∧
    create_dataset_with_version exampleMeta "ns" "d" "v1" (some "again")
        [⟨"b9", 1, 1⟩] (some "sj") 9 = (.error .alreadyExists, exampleMeta) :=
  ⟨by decide, create_on_existing_dataset exampleMeta "ns" "d" "v1" (some "again")
    [⟨"b9", 1, 1⟩] (some "sj") 9 exampleDataset (by decide)⟩

/-- C7, counterexample: the Azure backend's delete is not a no-op on an absent
block; it surfaces the SDK's ResourceNotFoundError. -/
theorem azure_delete_absent_raises :
    azure_delete_block ⟨[]⟩ "ns" "d" "b1" = .error .resourceNotFound := rfl

/-- C7, amended: for the local backend, deleting an absent block is a no-op
that cannot raise, and a second delete of the same identifier is a no-op; the
Azure backend raises ResourceNotFoundError on an absent block. -/
theorem delete_block_absent_noop (store : DataState) (ns dataset_name block_id : String)
    (h : store.blocks.contains (ns, dataset_name, block_id) = false) :
    delete_block store ns dataset_name block_id = store ∧
    azure_delete_block store ns dataset_name block_id = .error .resourceNotFound ∧
    (∀ s : DataState,
      delete_block (delete_block s ns dataset_name block_id) ns dataset_name block_id =
        delete_block s ns dataset_name block_id) := by
  refine ⟨?_, ?_, ?_⟩
  · unfold delete_block
    have hself : store.blocks.filter (fun k => k ≠ (ns, dataset_name, block_id)) =
        store.blocks := by
      rw [List.filter_eq_self]
      intro a ha
      rw [decide_eq_true_eq]
      intro heq
      rw [← heq] at h
      exact absurd ((contains_iff store.blocks a).mpr ha) (by rw [h]; simp)
    rw [hself]
  · unfold azure_delete_block
    rw [if_neg (by rw [h]; simp)]
  · intro s
    unfold delete_block
    have : ((⟨s.blocks.filter (fun k => k ≠ (ns, dataset_name, block_id))⟩ :
        DataState)).blocks = s.blocks.filter (fun k => k ≠ (ns, dataset_name, block_id)) := rfl
    rw [this, List.filter_eq_self.mpr (fun a ha => (List.mem_filter.mp ha).2)]

/-- Witness for C7 with a store holding only b1. -/
theorem delete_block_absent_noop_witness :
    (⟨[("ns", "d", "b1")]⟩ : DataState).blocks.contains ("ns", "d", "b2") = false ∧
    (delete_block ⟨[("ns", "d", "b1")]⟩ "ns" "d" "b2" = ⟨[("ns", "d", "b1")]⟩ ∧
     azure_delete_block ⟨[("ns", "d", "b1")]⟩ "ns" "d" "b2" = .error .resourceNotFound ∧
     (∀ s : DataState, delete_block (delete_block s "ns" "d" "b2") "ns" "d" "b2" =
        delete_block s "ns" "d" "b2")) :=
  ⟨by decide, delete_block_absent_noop ⟨[("ns", "d", "b1")]⟩ "ns" "d" "b2" (by decide)⟩

/-- C8: the (spec-modelled) list operation returns exactly one summary per
(dataset, version) pair passing the optional namespace filter, and each entry
carries the qualified name, namespace, version label, row count and creation
time of its pair. -/
theorem manager_list_spec (meta : MetaState) (ns_filter : Option String) :
    (∀ e, e ∈ manager_list meta ns_filter ↔
      ∃ d ∈ meta.datasets, nsMatches ns_filter d = true ∧
        ∃ v ∈ d.versions, e = summaryOf d v) ∧
    (∀ d v, (summaryOf d v).name = d.ns ++ "/" ++ d.name ++ "/" ++ v.version ∧
      (summaryOf d v).ns = d.ns ∧ (summaryOf d v).version = v.version ∧
      (summaryOf d v).row_count = v.row_count ∧
      (summaryOf d v).created_at = v.created_at) := by
  constructor
  · intro e
    unfold manager_list
    rw [List.mem_flatMap]
    constructor
    · rintro ⟨d, hd, he⟩
      obtain ⟨hmem, hns⟩ := List.mem_filter.mp hd
      obtain ⟨v, hv, hev⟩ := List.mem_map.mp he
      exact ⟨d, hmem, hns, v, hv, hev.symm⟩
    · rintro ⟨d, hmem, hns, v, hv, hev⟩
      exact ⟨d, List.mem_filter.mpr ⟨hmem, hns⟩, List.mem_map.mpr ⟨v, hv, hev.symm⟩⟩
  · intro d v
    exact ⟨rfl, rfl, rfl, rfl, rfl⟩

/-- C2: starting from a state in which every version's counters agree with its
block rows, any successful create_dataset_with_version, add_version or
extend_version call yields a state in which every version (in particular the
created or extended one) again satisfies row_count = sum of its blocks'
row_count, size_bytes = sum of its blocks' size_bytes, and file_count = number
of its blocks. -/
theorem counters_invariant_after_ops (st : MetaState) (h : metaCountersOk st = true) :
    (∀ ns name ver descr bs sj now vi st1,
      create_dataset_with_version st ns name ver descr bs sj now = (.ok vi, st1) →
      metaCountersOk st1 = true) ∧
    (∀ ns name bv nv nbs descr now vi st1,
      add_version st ns name bv nv nbs descr now = (.ok vi, st1) →
      metaCountersOk st1 = true) ∧
    (∀ ns name ver nbs now vi st1,
      extend_version st ns name ver nbs now = (.ok vi, st1) →
      metaCountersOk st1 = true) := by
  refine ⟨?_, ?_, ?_⟩
  · intro ns name ver descr bs sj now vi st1 hs
    obtain ⟨hd, vrec, hb, hr, hsz, hf, hvi, hst⟩ :=
      create_dataset_ok st ns name ver descr bs sj now vi st1 hs
    subst hst
    have hok := versionCountersOk_mkVersion bs now vrec hb hr hsz hf
    unfold metaCountersOk at h ⊢
    rw [show ((⟨st.datasets ++ [⟨ns, name, descr, now, [vrec]⟩]⟩ : MetaState)).datasets =
      st.datasets ++ [⟨ns, name, descr, now, [vrec]⟩] from rfl]
    rw [List.all_append, Bool.and_eq_true]
    exact ⟨h, by simp [hok]⟩
  · intro ns name bv nv nbs descr now vi st1 hs
    obtain ⟨bver, hb, hn, hvi, hst⟩ := add_version_ok st ns name bv nv nbs descr now vi st1 hs
    subst hst
    have hbok : versionCountersOk bver = true := by
      obtain ⟨d, hdmem, hvmem⟩ := getVersionObj_mem st ns name bv bver hb
      exact (metaCountersOk_iff st).mp h d hdmem bver hvmem
    apply metaCountersOk_updateDataset st ns name _ _ h
    intro d hall
    rw [show ({ d with versions :=
        d.versions ++ [addVersionRec bver bv nv nbs descr now] } : DatasetRec).versions =
      d.versions ++ [addVersionRec bver bv nv nbs descr now] from rfl]
    rw [List.all_append, Bool.and_eq_true]
    exact ⟨hall, by simp [versionCountersOk_addVersionRec bver bv nv nbs descr now hbok]⟩
  · intro ns name ver nbs now vi st1 hs
    obtain ⟨vobj, hb, hvi, hst⟩ := extend_version_ok st ns name ver nbs now vi st1 hs
    subst hst
    apply metaCountersOk_updateDataset st ns name _ _ h
    intro d hall
    exact updateFirst_all versionCountersOk _ _
      (fun v hv => versionCountersOk_extendVersionRec v nbs now hv) d.versions hall

/-- Witness for C2 at the example state. -/
theorem counters_invariant_after_ops_witness :
    metaCountersOk exampleMeta = true ∧
    ((∀ ns name ver descr bs sj now vi st1,
      create_dataset_with_version exampleMeta ns name ver descr bs sj now = (.ok vi, st1) →
      metaCountersOk st1 = true) ∧
    (∀ ns name bv nv nbs descr now vi st1,
      add_version exampleMeta ns name bv nv nbs descr now = (.ok vi, st1) →
      metaCountersOk st1 = true) ∧
    (∀ ns name ver nbs now vi st1,
      extend_version exampleMeta ns name ver nbs now = (.ok vi, st1) →
      metaCountersOk st1 = true)) :=
  ⟨by decide, counters_invariant_after_ops exampleMeta (by decide)⟩

/-- C3: for a base version whose n block rows sit at positions 0..n-1,
a successful add_version produces a new version whose block rows carry exactly
the base version's block identifiers in the same order at positions 0..n-1,
followed by the m new blocks at positions n..n+m-1, and the base version's row
is left unmodified. -/
theorem add_version_copy_on_write (st : MetaState) (ns name bv nv : String)
    (nbs : List BlockInfo) (descr : Option String) (now : Nat) (vi : VersionInfo)
    (st1 : MetaState) (bver : VersionRec)
    (hb : getVersionObj st ns name bv = some bver)
    (hpos : versionPositional bver = true)
    (hs : add_version st ns name bv nv nbs descr now = (.ok vi, st1)) :
    ∃ nver, getVersionObj st1 ns name nv = some nver ∧
      nver.blocks.map (·.block_id) =
        bver.blocks.map (·.block_id) ++ nbs.map (·.block_id) ∧
      nver.blocks.map (·.block_number) = List.range (bver.blocks.length + nbs.length) ∧
      getVersionObj st1 ns name bv = some bver := by
  obtain ⟨bver2, hb2, hn, hvi, hst⟩ := add_version_ok st ns name bv nv nbs descr now vi st1 hs
  rw [hb] at hb2
  injection hb2 with heq
  subst heq
  subst hst
  have hsort : sortBlocks bver.blocks = bver.blocks := positional_sortBlocks_eq hpos
  have hblocks : (addVersionRec bver bv nv nbs descr now).blocks =
      bver.blocks.map (fun b => { b with created_at := now })
        ++ mkBlockRows now bver.blocks.length nbs := by
    show (sortBlocks bver.blocks).map (fun b => { b with created_at := now })
        ++ mkBlockRows now (sortBlocks bver.blocks).length nbs = _
    rw [hsort]
  have hlook := add_version_lookups st ns name bv nv nbs descr now bver hb hn
  refine ⟨addVersionRec bver bv nv nbs descr now, hlook.1, ?_, ?_, hlook.2⟩
  · rw [hblocks, List.map_append, List.map_map]
    have hcomp : ((fun x : BlockRow => x.block_id) ∘ fun b : BlockRow =>
        { b with created_at := now }) = fun b : BlockRow => b.block_id := rfl
    rw [hcomp, mkBlockRows_map_block_id]
  · rw [hblocks, List.map_append, List.map_map]
    have hcomp : ((fun x : BlockRow => x.block_number) ∘ fun b : BlockRow =>
        { b with created_at := now }) = fun b : BlockRow => b.block_number := rfl
    have hrange : bver.blocks.map (fun b : BlockRow => b.block_number) =
        List.range bver.blocks.length := by
      simpa [versionPositional] using hpos
    rw [hcomp, mkBlockRows_map_block_number, hrange, List.range_add,
      List.range'_eq_map_range]

/-- Witness for C3: extending example version v2 (blocks b1, b2) with a new
block b3 into version v3. -/
theorem add_version_copy_on_write_witness :
    getVersionObj exampleMeta "ns" "d" "v2" = some exampleV2 ∧
    versionPositional exampleV2 = true ∧
    add_version exampleMeta "ns" "d" "v2" "v3" [⟨"b3", 6, 3⟩] none 3 =
      (.ok (version_to_info "ns" "d"
        (addVersionRec exampleV2 "v2" "v3" [⟨"b3", 6, 3⟩] none 3)),
       updateDataset exampleMeta "ns" "d" (fun d =>
         { d with versions :=
           d.versions ++ [addVersionRec exampleV2 "v2" "v3" [⟨"b3", 6, 3⟩] none 3] })) ∧
    (∃ nver, getVersionObj (updateDataset exampleMeta "ns" "d" (fun d =>
        { d with versions :=
          d.versions ++ [addVersionRec exampleV2 "v2" "v3" [⟨"b3", 6, 3⟩] none 3] }))
        "ns" "d" "v3" = some nver ∧
      nver.blocks.map (·.block_id) =
        exampleV2.blocks.map (·.block_id) ++ [(⟨"b3", 6, 3⟩ : BlockInfo)].map (·.block_id) ∧
      nver.blocks.map (·.block_number) =
        List.range (exampleV2.blocks.length + [(⟨"b3", 6, 3⟩ : BlockInfo)].length) ∧
      getVersionObj (updateDataset exampleMeta "ns" "d" (fun d =>
        { d with versions :=
          d.versions ++ [addVersionRec exampleV2 "v2" "v3" [⟨"b3", 6, 3⟩] none 3] }))
        "ns" "d" "v2" = some exampleV2) :=
  ⟨by decide, by decide, rfl,
    add_version_copy_on_write exampleMeta "ns" "d" "v2" "v3" [⟨"b3", 6, 3⟩] none 3
      (version_to_info "ns" "d" (addVersionRec exampleV2 "v2" "v3" [⟨"b3", 6, 3⟩] none 3))
      (updateDataset exampleMeta "ns" "d" (fun d =>
        { d with versions :=
          d.versions ++ [addVersionRec exampleV2 "v2" "v3" [⟨"b3", 6, 3⟩] none 3] }))
      exampleV2 (by decide) (by decide) rfl⟩

/-- C10: a successful add_version stores the base version's schema_json blob
unchanged on the new version, and returns it unchanged in the DTO. -/
theorem add_version_copies_schema (st : MetaState) (ns name bv nv : String)
    (nbs : List BlockInfo) (descr : Option String) (now : Nat) (vi : VersionInfo)
    (st1 : MetaState) (bver : VersionRec)
    (hb : getVersionObj st ns name bv = some bver)
    (hs : add_version st ns name bv nv nbs descr now = (.ok vi, st1)) :
    vi.schema_json = bver.schema_json ∧
    ∃ nver, getVersionObj st1 ns name nv = some nver ∧
      nver.schema_json = bver.schema_json := by
  obtain ⟨bver2, hb2, hn, hvi, hst⟩ := add_version_ok st ns name bv nv nbs descr now vi st1 hs
  rw [hb] at hb2
  injection hb2 with heq
  subst heq
  subst hst
  subst hvi
  exact ⟨rfl, addVersionRec bver bv nv nbs descr now,
    (add_version_lookups st ns name bv nv nbs descr now bver hb hn).1, rfl⟩

/-- Witness for C10: adding version v4 on top of example version v1. -/
theorem add_version_copies_schema_witness :
    getVersionObj exampleMeta "ns" "d" "v1" = some exampleV1 ∧
    add_version exampleMeta "ns" "d" "v1" "v4" [⟨"b4", 2, 1⟩] none 4 =
      (.ok (version_to_info "ns" "d"
        (addVersionRec exampleV1 "v1" "v4" [⟨"b4", 2, 1⟩] none 4)),
       updateDataset exampleMeta "ns" "d" (fun d =>
         { d with versions :=
           d.versions ++ [addVersionRec exampleV1 "v1" "v4" [⟨"b4", 2, 1⟩] none 4] })) ∧
    ((version_to_info "ns" "d"
        (addVersionRec exampleV1 "v1" "v4" [⟨"b4", 2, 1⟩] none 4)).schema_json =
      exampleV1.schema_json ∧
    ∃ nver, getVersionObj (updateDataset exampleMeta "ns" "d" (fun d =>
        { d with versions :=
          d.versions ++ [addVersionRec exampleV1 "v1" "v4" [⟨"b4", 2, 1⟩] none 4] }))
        "ns" "d" "v4" = some nver ∧
      nver.schema_json = exampleV1.schema_json) :=
  ⟨by decide, rfl,
    add_version_copies_schema exampleMeta "ns" "d" "v1" "v4" [⟨"b4", 2, 1⟩] none 4
      (version_to_info "ns" "d" (addVersionRec exampleV1 "v1" "v4" [⟨"b4", 2, 1⟩] none 4))
      (updateDataset exampleMeta "ns" "d" (fun d =>
        { d with versions :=
          d.versions ++ [addVersionRec exampleV1 "v1" "v4" [⟨"b4", 2, 1⟩] none 4] }))
      exampleV1 (by decide) rfl⟩

/-- C9: when create fails because the dataset exists, or extend fails (in
either mode) because the source version is absent, the metadata state is
returned unchanged, but the freshly written physical block is already in the
block store and is not cleaned up; since its id was fresh and unreferenced,
the failed call leaves exactly one more orphaned physical block. -/
theorem failed_call_leaves_orphan (meta : MetaState) (data : DataState)
    (name2 name3 ns ds src description : String) (tbl : Table) (block_id : String)
    (now : Nat)
    (hsplit2 : pySplit name2 '/' = [ns, ds])
    (hsplit3 : pySplit name3 '/' = [ns, ds, src])
    (hfresh : data.blocks.contains (ns, ds, block_id) = false)
    (hunref : referencedInMeta meta ns ds block_id = false) :
    (∀ d, getDataset meta ns ds = some d →
      manager_create meta data name2 description tbl block_id now =
        (.error .alreadyExists, meta, ⟨data.blocks ++ [(ns, ds, block_id)]⟩)) ∧
    (getVersionObj meta ns ds src = none →
      manager_extend meta data name3 tbl block_id true now =
        (.error .notFound, meta, ⟨data.blocks ++ [(ns, ds, block_id)]⟩) ∧
      manager_extend meta data name3 tbl block_id false now =
        (.error .notFound, meta, ⟨data.blocks ++ [(ns, ds, block_id)]⟩)) ∧
    orphanBlocks meta ⟨data.blocks ++ [(ns, ds, block_id)]⟩ =
      orphanBlocks meta data ++ [(ns, ds, block_id)] := by
  have hnotmem : (ns, ds, block_id) ∉ data.blocks := fun hm => by
    rw [(contains_iff data.blocks (ns, ds, block_id)).mpr hm] at hfresh
    exact absurd hfresh (by simp)
  have hwrite : write_block data tbl ns ds block_id =
      (⟨data.blocks ++ [(ns, ds, block_id)]⟩, tbl.size_bytes) := by
    simp [write_block, hnotmem]
  refine ⟨?_, ?_, ?_⟩
  · intro d hd
    simp only [manager_create, hsplit2, hwrite]
    unfold create_dataset_with_version
    rw [hd]
  · intro hsrc
    constructor
    · simp only [manager_extend, hsplit3, hwrite, if_pos]
      unfold add_version
      rw [hsrc]
    · simp only [manager_extend, hsplit3, hwrite]
      unfold extend_version
      rw [hsrc]
      simp
  · unfold orphanBlocks
    rw [show ((⟨data.blocks ++ [(ns, ds, block_id)]⟩ : DataState)).blocks =
      data.blocks ++ [(ns, ds, block_id)] from rfl]
    rw [List.filter_append]
    have hone : List.filter
        (fun k : PhysKey => !referencedInMeta meta k.1 k.2.1 k.2.2)
        [(ns, ds, block_id)] = [(ns, ds, block_id)] := by
      simp [hunref]
    rw [hone]

/-- Witness for C9: a create colliding with the example dataset, and extends of
the absent version v9, each stranding the precomputed block b3. -/
theorem failed_call_leaves_orphan_witness :
    pySplit "ns/d" '/' = ["ns", "d"] ∧
    pySplit "ns/d/v9" '/' = ["ns", "d", "v9"] ∧
    exampleData.blocks.contains ("ns", "d", "b3") = false ∧
    referencedInMeta exampleMeta "ns" "d" "b3" = false ∧
    ((∀ d, getDataset exampleMeta "ns" "d" = some d →
      manager_create exampleMeta exampleData "ns/d" "x" ⟨7, 14, "s2"⟩ "b3" 5 =
        (.error .alreadyExists, exampleMeta,
         ⟨exampleData.blocks ++ [("ns", "d", "b3")]⟩)) ∧
    (getVersionObj exampleMeta "ns" "d" "v9" = none →
      manager_extend exampleMeta exampleData "ns/d/v9" ⟨7, 14, "s2"⟩ "b3" true 5 =
        (.error .notFound, exampleMeta, ⟨exampleData.blocks ++ [("ns", "d", "b3")]⟩) ∧
      manager_extend exampleMeta exampleData "ns/d/v9" ⟨7, 14, "s2"⟩ "b3" false 5 =
        (.error .notFound, exampleMeta, ⟨exampleData.blocks ++ [("ns", "d", "b3")]⟩)) ∧
    orphanBlocks exampleMeta ⟨exampleData.blocks ++ [("ns", "d", "b3")]⟩ =
      orphanBlocks exampleMeta exampleData ++ [("ns", "d", "b3")]) :=
  ⟨by decide, by decide, by decide, by decide,
    failed_call_leaves_orphan exampleMeta exampleData "ns/d" "ns/d/v9" "ns" "d" "v9"
      "x" ⟨7, 14, "s2"⟩ "b3" 5 (by decide) (by decide) (by decide) (by decide)⟩

theorem contains_false_iff (l : List String) (a : String) :
    l.contains a = false ↔ a ∉ l := by
  constructor
  · intro h hm
    rw [(contains_iff l a).mpr hm] at h
    exact absurd h (by simp)
  · intro h
    cases hc : l.contains a
    · rfl
    · exact absurd ((contains_iff l a).mp hc) h

/-- C4, counterexample: erasing the whole example dataset ns/d succeeds, but
its event trace performs physical block deletions before the metadata
deletion, so the physical deletions are not "only after the metadata
deletion" as claimed. -/
theorem erase_dataset_claim_cx :
    (manager_erase exampleMeta exampleData "ns/d").1 = .ok () ∧
    (manager_erase exampleMeta exampleData "ns/d").2.2.2 =
      [Event.physDelete "ns" "d" "b1", Event.physDelete "ns" "d" "b2",
       Event.metaDeleteDataset "ns" "d"] ∧
    physOnlyAfterMeta (manager_erase exampleMeta exampleData "ns/d").2.2.2 = false :=
  ⟨rfl, by decide, by decide⟩

/-- C4, amended: erasing a two-segment name first enumerates all referenced
block identifiers, then best-effort physically deletes each of them, and only
after those physical deletion attempts deletes the dataset's metadata: the
trace is the physical deletions of exactly the enumerated identifiers followed
by the metadata deletion (so whenever a block exists the physical deletions
precede the metadata delete, not the other way round). -/
theorem erase_dataset_order (meta : MetaState) (data : DataState) (name ns ds : String)
    (d : DatasetRec)
    (hsplit : pySplit name '/' = [ns, ds])
    (hds : getDataset meta ns ds = some d) :
    ∃ evts, manager_erase meta data name =
      (.ok (), (delete_dataset meta ns ds).2,
       applyPhysDeletes data ns ds (get_all_block_ids_for_dataset meta ns ds), evts) ∧
      (∀ bid, Event.physDelete ns ds bid ∈ evts ↔
        bid ∈ get_all_block_ids_for_dataset meta ns ds) ∧
      evts.getLast? = some (Event.metaDeleteDataset ns ds) ∧
      (∀ e ∈ evts.dropLast, isPhysEvent e = true) ∧
      (get_all_block_ids_for_dataset meta ns ds ≠ [] →
        physOnlyAfterMeta evts = false) := by
  have hdel : (delete_dataset meta ns ds).1 = true := by
    unfold delete_dataset
    rw [hds]
  refine ⟨(get_all_block_ids_for_dataset meta ns ds).map (Event.physDelete ns ds) ++
    [Event.metaDeleteDataset ns ds], ?_, ?_, ?_, ?_, ?_⟩
  · simp only [manager_erase, hsplit]
    rw [if_pos hdel]
  · intro bid
    simp [List.mem_append, List.mem_map]
  · exact List.getLast?_concat _
  · rw [List.dropLast_concat]
    intro e he
    obtain ⟨b, hb, heq⟩ := List.mem_map.mp he
    rw [← heq]
    rfl
  · intro hne
    cases hids : get_all_block_ids_for_dataset meta ns ds with
    | nil => exact absurd hids hne
    | cons i is =>
      simp [physOnlyAfterMeta, isMetaEvent, isPhysEvent, List.takeWhile]

/-- Witness for C4 at the example state. -/
theorem erase_dataset_order_witness :
    pySplit "ns/d" '/' = ["ns", "d"] ∧
    getDataset exampleMeta "ns" "d" = some exampleDataset ∧
    (∃ evts, manager_erase exampleMeta exampleData "ns/d" =
      (.ok (), (delete_dataset exampleMeta "ns" "d").2,
       applyPhysDeletes exampleData "ns" "d"
         (get_all_block_ids_for_dataset exampleMeta "ns" "d"), evts) ∧
      (∀ bid, Event.physDelete "ns" "d" bid ∈ evts ↔
        bid ∈ get_all_block_ids_for_dataset exampleMeta "ns" "d") ∧
      evts.getLast? = some (Event.metaDeleteDataset "ns" "d") ∧
      (∀ e ∈ evts.dropLast, isPhysEvent e = true) ∧
      (get_all_block_ids_for_dataset exampleMeta "ns" "d" ≠ [] →
        physOnlyAfterMeta evts = false)) :=
  ⟨by decide, by decide,
    erase_dataset_order exampleMeta exampleData "ns/d" "ns" "d" exampleDataset
      (by decide) (by decide)⟩

/-- C1: erasing a three-segment name deletes the version's metadata row first
(the trace starts with the metadata deletion and everything after it is a
physical deletion), then physically deletes exactly the erased version's block
identifiers minus those still referenced by the surviving versions after the
metadata delete; in particular no identifier still referenced by any surviving
version of the dataset is physically deleted, and the block store loses
exactly the deleted identifiers. -/
theorem erase_version_gc (meta : MetaState) (data : DataState) (name ns ds ver : String)
    (vi : VersionInfo)
    (hsplit : pySplit name '/' = [ns, ds, ver])
    (hget : get_version meta ns ds ver = some vi) :
    ∃ meta1 data1 evts,
      manager_erase meta data name = (.ok (), meta1, data1, evts) ∧
      meta1 = (delete_version meta ns ds ver).2 ∧
      (∀ bid, Event.physDelete ns ds bid ∈ evts ↔
        bid ∈ vi.block_ids ∧ bid ∉ get_all_block_ids_for_dataset meta1 ns ds) ∧
      (∀ bid d v, getDataset meta1 ns ds = some d → v ∈ d.versions →
        bid ∈ v.blocks.map (·.block_id) → Event.physDelete ns ds bid ∉ evts) ∧
      (∀ k : PhysKey, k ∈ data1.blocks ↔ k ∈ data.blocks ∧
        ¬(k.1 = ns ∧ k.2.1 = ds ∧ Event.physDelete ns ds k.2.2 ∈ evts)) ∧
      evts.head? = some (Event.metaDeleteVersion ns ds ver) ∧
      (∀ e ∈ evts.tail, isPhysEvent e = true) := by
  refine ⟨(delete_version meta ns ds ver).2,
    applyPhysDeletes data ns ds
      ((dedup vi.block_ids).filter (fun b =>
        !(get_all_block_ids_for_dataset (delete_version meta ns ds ver).2 ns ds).contains b)),
    Event.metaDeleteVersion ns ds ver ::
      ((dedup vi.block_ids).filter (fun b =>
        !(get_all_block_ids_for_dataset (delete_version meta ns ds ver).2 ns ds).contains b)).map
        (Event.physDelete ns ds),
    ?_, rfl, ?_, ?_, ?_, rfl, ?_⟩
  · simp only [manager_erase, hsplit, hget]
  · intro bid
    rw [List.mem_cons]
    simp only [List.mem_map]
    constructor
    · rintro (hmeta | ⟨b, hb, heq⟩)
      · exact absurd hmeta (by simp)
      · obtain ⟨hdd, hrem⟩ := List.mem_filter.mp hb
        injection heq with e1 e2 e3
        subst e3
        exact ⟨(mem_dedup b vi.block_ids).mp hdd,
          (contains_false_iff _ b).mp (by simpa using hrem)⟩
    · rintro ⟨hin, hout⟩
      refine Or.inr ⟨bid, List.mem_filter.mpr ⟨(mem_dedup bid vi.block_ids).mpr hin, ?_⟩, rfl⟩
      rw [Bool.not_eq_true']
      exact (contains_false_iff _ bid).mpr hout
  · intro bid d v hd hv hbid hmem
    have hbidin : bid ∈ get_all_block_ids_for_dataset (delete_version meta ns ds ver).2 ns ds := by
      rw [mem_get_all_block_ids]
      obtain ⟨b, hb, hidb⟩ := List.mem_map.mp hbid
      exact ⟨d, hd, v, hv, b, hb, hidb⟩
    rcases List.mem_cons.mp hmem with hmeta | hphys
    · exact absurd hmeta (by simp)
    · obtain ⟨b, hb, heq⟩ := List.mem_map.mp hphys
      injection heq with e1 e2 e3
      subst e3
      obtain ⟨hdd, hrem⟩ := List.mem_filter.mp hb
      rw [Bool.not_eq_true'] at hrem
      exact absurd hbidin ((contains_false_iff _ b).mp hrem)
  · intro k
    rw [mem_applyPhysDeletes]
    constructor
    · rintro ⟨hk, hn⟩
      refine ⟨hk, fun hc => hn ⟨hc.1, hc.2.1, ?_⟩⟩
      rcases List.mem_cons.mp hc.2.2 with hmeta | hphys
      · exact absurd hmeta (by simp)
      · obtain ⟨b, hb, heq⟩ := List.mem_map.mp hphys
        injection heq with e1 e2 e3
        subst e3
        exact hb
    · rintro ⟨hk, hn⟩
      refine ⟨hk, fun hc => hn ⟨hc.1, hc.2.1, ?_⟩⟩
      exact List.mem_cons.mpr (Or.inr (List.mem_map.mpr ⟨k.2.2, hc.2.2, rfl⟩))
  · intro e he
    obtain ⟨b, hb, heq⟩ := List.mem_map.mp he
    rw [← heq]
    rfl

/-- Witness for C1: erasing example version v2 (whose blocks are b1 shared
with v1 and b2 unshared). -/
theorem erase_version_gc_witness :
    pySplit "ns/d/v2" '/' = ["ns", "d", "v2"] ∧
    get_version exampleMeta "ns" "d" "v2" = some exampleV2Info ∧
    (∃ meta1 data1 evts,
      manager_erase exampleMeta exampleData "ns/d/v2" = (.ok (), meta1, data1, evts) ∧
      meta1 = (delete_version exampleMeta "ns" "d" "v2").2 ∧
      (∀ bid, Event.physDelete "ns" "d" bid ∈ evts ↔
        bid ∈ exampleV2Info.block_ids ∧
          bid ∉ get_all_block_ids_for_dataset meta1 "ns" "d") ∧
      (∀ bid d v, getDataset meta1 "ns" "d" = some d → v ∈ d.versions →
        bid ∈ v.blocks.map (·.block_id) → Event.physDelete "ns" "d" bid ∉ evts) ∧
      (∀ k : PhysKey, k ∈ data1.blocks ↔ k ∈ exampleData.blocks ∧
        ¬(k.1 = "ns" ∧ k.2.1 = "d" ∧ Event.physDelete "ns" "d" k.2.2 ∈ evts)) ∧
      evts.head? = some (Event.metaDeleteVersion "ns" "d" "v2") ∧
      (∀ e ∈ evts.tail, isPhysEvent e = true)) :=
  ⟨by decide, by decide,
    erase_version_gc exampleMeta exampleData "ns/d/v2" "ns" "d" "v2" exampleV2Info
      (by decide) (by decide)⟩

end Bliq
